import Mathlib

/-!
Verification of the pushdown optimizer pass (predicate / projection / index
pushdown) of the csvql SQL analyzer, together with the releaser wrapper that
manages index-handle lifecycles and the unresolved-table placeholder.

The Go source is shallowly embedded: plan nodes and expressions become
inductive types, the stateful bottom-up rewrite becomes explicit state
passing, fallible code returns `Except`.  Helpers that live outside the
provided sources (`splitExpression`, `getUnhandledFilters`, `JoinAnd`,
`exprToTableFilters`, the index assignment provider) are modelled from the
specification and marked as such in their doc comments.
-/

namespace Csvql

/-- Errors produced by the analyzer: the field-missing error raised by field
index fixup, the unresolved-table error, and a catch-all for errors coming
from external collaborators. -/
inductive SqlError where
  | fieldMissing (name : String)
  | unresolvedTable
  | other (msg : String)
deriving DecidableEq, Repr

/-- Whether an error is the field-missing kind (Go: `ErrFieldMissing.Is`). -/
def SqlError.isFieldMissing : SqlError → Bool
  | .fieldMissing _ => true
  | _ => false

/-- A column descriptor of a schema: name, source-table tag, declared type
and nullability (Go: `sql.Column`). -/
structure Column where
  name : String
  source : String
  typ : String
  nullable : Bool
deriving DecidableEq, Repr

/-- Expressions.  `getField` is the distinguished field-reference carrying a
positional row index, a declared type, a source-table tag, a column name and
nullability (Go: `expression.GetField`, built by `NewGetFieldWithTable`).
The remaining constructors give the conjunction structure the pass splits
on plus enough other shapes (disjunction, comparison, literal) to state the
claims. -/
inductive Expression where
  | getField (index : Nat) (typ : String) (table : String) (name : String) (nullable : Bool)
  | literal (v : Int)
  | and (l r : Expression)
  | or (l r : Expression)
  | eq (l r : Expression)
deriving DecidableEq, Repr

/-- Bottom-up expression transform (Go: `sql.Expression.TransformUp`):
children are transformed first, the node is rebuilt, and `f` is applied to
the reconstructed node; errors short-circuit. -/
def Expression.transformUp (f : Expression → Except SqlError Expression) :
    Expression → Except SqlError Expression
  | .and l r =>
    match l.transformUp f with
    | .error e => .error e
    | .ok l2 =>
      match r.transformUp f with
      | .error e => .error e
      | .ok r2 => f (.and l2 r2)
  | .or l r =>
    match l.transformUp f with
    | .error e => .error e
    | .ok l2 =>
      match r.transformUp f with
      | .error e => .error e
      | .ok r2 => f (.or l2 r2)
  | .eq l r =>
    match l.transformUp f with
    | .error e => .error e
    | .ok l2 =>
      match r.transformUp f with
      | .error e => .error e
      | .ok r2 => f (.eq l2 r2)
  | .getField i ty tb nm nu => f (.getField i ty tb nm nu)
  | .literal v => f (.literal v)

/-- Every subexpression of an expression, in the pre-order in which
`expression.Inspect` visits them (the node itself, then its children left to
right). -/
def Expression.subExprs : Expression → List Expression
  | .and l r => .and l r :: (l.subExprs ++ r.subExprs)
  | .or l r => .or l r :: (l.subExprs ++ r.subExprs)
  | .eq l r => .eq l r :: (l.subExprs ++ r.subExprs)
  | .getField i ty tb nm nu => [.getField i ty tb nm nu]
  | .literal v => [.literal v]

/-- Index of the first column of `schema` (counting from `i`) whose name
equals `nm` and whose source equals `tb`; embeds the indexed loop inside
`fixFieldIndexes` (`for i, col := range schema`). -/
def findMatchAux (tb nm : String) : Nat → List Column → Option Nat
  | _, [] => none
  | i, c :: rest =>
    if nm = c.name ∧ tb = c.source then some i else findMatchAux tb nm (i + 1) rest

/-- Field index fixup (Go: `fixFieldIndexes`): rewrites every `GetField` so
that its positional index matches the given schema, erroring with
field-missing when a reference matches no column. -/
def fixFieldIndexes (schema : List Column) (exp : Expression) :
    Except SqlError Expression :=
  exp.transformUp fun e =>
    match e with
    | .getField _ ty tb nm nu =>
      match findMatchAux tb nm 0 schema with
      | some i => .ok (.getField i ty tb nm nu)
      | none => .error (.fieldMissing nm)
    | e => .ok e

/-- Go: `fixFieldIndexesOnExpressions`, executing `fixFieldIndexes` on a
list of expressions, stopping at the first error. -/
def fixFieldIndexesOnExpressions (schema : List Column) :
    List Expression → Except SqlError (List Expression)
  | [] => .ok []
  | e :: es =>
    match fixFieldIndexes schema e with
    | .error err => .error err
    | .ok e2 =>
      match fixFieldIndexesOnExpressions schema es with
      | .error err => .error err
      | .ok es2 => .ok (e2 :: es2)

/-- Specification-side fixup: the claim's description of what fixup does on
success — every field-reference carries the positional index of the first
matching column, all other attributes preserved, everything else untouched. -/
def specFixExpr (schema : List Column) : Expression → Expression
  | .getField i ty tb nm nu =>
    match findMatchAux tb nm 0 schema with
    | some j => .getField j ty tb nm nu
    | none => .getField i ty tb nm nu
  | .and l r => .and (specFixExpr schema l) (specFixExpr schema r)
  | .or l r => .or (specFixExpr schema l) (specFixExpr schema r)
  | .eq l r => .eq (specFixExpr schema l) (specFixExpr schema r)
  | .literal v => .literal v

/-- Name of the first (leftmost) field-reference of the expression that
matches no column of the schema, if any. -/
def firstMissing (schema : List Column) : Expression → Option String
  | .getField _ _ tb nm _ =>
    match findMatchAux tb nm 0 schema with
    | some _ => none
    | none => some nm
  | .and l r =>
    match firstMissing schema l with
    | some nm => some nm
    | none => firstMissing schema r
  | .or l r =>
    match firstMissing schema l with
    | some nm => some nm
    | none => firstMissing schema r
  | .eq l r =>
    match firstMissing schema l with
    | some nm => some nm
    | none => firstMissing schema r
  | .literal _ => none

/-- An externally owned index handle, identified by a number. -/
abbrev IndexHandle := Nat

/-- An index assignment entry for a table: the opaque lookup descriptor plus
the index handles consumed to build it (Go: the per-table value returned by
`assignIndexes`). -/
structure IndexLookup where
  indexes : List IndexHandle
  lookup : String

/-- A base table value together with its optional capabilities.
`handledF` models the filter-acceptor capability (`sql.FilteredTable`,
carrying the `HandledFilters` decision function); `projCap` and `idxCap`
model the presence of `sql.ProjectedTable` and `sql.IndexableTable`.  The
trailing fields record what the capability installers (`WithFilters`,
`WithProjection`, `WithIndexLookup`) have been given. -/
structure Table where
  name : String
  schema : List Column
  handledF : Option (List Expression → List Expression)
  projCap : Bool
  idxCap : Bool
  filters : List Expression
  projection : Option (List String)
  lookup : Option String

/-- Go: `FilteredTable.WithFilters`, returning a new table value bound to
exactly the given filters. -/
def Table.withFilters (t : Table) (es : List Expression) : Table :=
  ⟨t.name, t.schema, t.handledF, t.projCap, t.idxCap, es, t.projection, t.lookup⟩

/-- Go: `ProjectedTable.WithProjection`, returning a new table value that
materializes only the named columns. -/
def Table.withProjection (t : Table) (cols : List String) : Table :=
  ⟨t.name, t.schema, t.handledF, t.projCap, t.idxCap, t.filters, some cols, t.lookup⟩

/-- Go: `IndexableTable.WithIndexLookup`, returning a new table value bound
to the given lookup descriptor. -/
def Table.withIndexLookup (t : Table) (l : String) : Table :=
  ⟨t.name, t.schema, t.handledF, t.projCap, t.idxCap, t.filters, t.projection, some l⟩

/-- The row shape the table actually produces: the declared schema, pruned
to the projected columns once a projection has been installed. -/
def Table.effSchema (t : Table) : List Column :=
  match t.projection with
  | none => t.schema
  | some cols => t.schema.filter fun c => decide (c.name ∈ cols)

/-- Plan nodes, as a closed variant: filter, projection, inner join,
resolved base table, unresolved-table placeholder, the releaser wrapper
(carrying the index handles its release closure would return), and the two
statement nodes the pass skips (`plan.InsertInto`, `plan.CreateIndex`). -/
inductive Node where
  | filter (expr : Expression) (child : Node)
  | project (exprs : List Expression) (child : Node)
  | innerJoin (left right : Node) (cond : Expression)
  | resolvedTable (table : Table)
  | unresolvedTable (name : String)
  | releaser (child : Node) (handles : List IndexHandle)
  | insertInto (child : Node)
  | createIndex (child : Node)

/-- Go: `Node.Resolved()` — true once no unresolved placeholder remains
beneath the node (the placeholder itself always reports false). -/
def Node.resolvedB : Node → Bool
  | .filter _ c => c.resolvedB
  | .project _ c => c.resolvedB
  | .innerJoin l r _ => l.resolvedB && r.resolvedB
  | .resolvedTable _ => true
  | .unresolvedTable _ => false
  | .releaser c _ => c.resolvedB
  | .insertInto c => c.resolvedB
  | .createIndex c => c.resolvedB

/-- Go: `Node.Children()`. -/
def Node.childrenL : Node → List Node
  | .filter _ c => [c]
  | .project _ c => [c]
  | .innerJoin l r _ => [l, r]
  | .resolvedTable _ => []
  | .unresolvedTable _ => []
  | .releaser c _ => [c]
  | .insertInto c => [c]
  | .createIndex c => [c]

/-- Helper: the column a projected expression contributes to a projection
node's schema. -/
def exprToColumn : Expression → Column
  | .getField _ ty tb nm nu => ⟨nm, tb, ty, nu⟩
  | _ => ⟨"", "", "", false⟩

/-- Go: `Node.Schema()` — a filter and the releaser defer to the child, a
projection derives its shape from its expressions, a join concatenates its
children's schemas, a resolved table reports the shape its table value
actually produces, and the unresolved placeholder has no schema. -/
def Node.schema : Node → List Column
  | .filter _ c => c.schema
  | .project es _ => es.map exprToColumn
  | .innerJoin l r _ => l.schema ++ r.schema
  | .resolvedTable t => t.effSchema
  | .unresolvedTable _ => []
  | .releaser c _ => c.schema
  | .insertInto c => c.schema
  | .createIndex c => c.schema

/-- Subexpressions of a list of expressions, in order. -/
def listSubExprs : List Expression → List Expression
  | [] => []
  | e :: es => e.subExprs ++ listSubExprs es

/-- Every subexpression owned anywhere in the tree, in the order
`plan.InspectExpressions` visits them: each node's own expressions first
(pre-order within each expression), then the children's, left to right. -/
def Node.allSubExprs : Node → List Expression
  | .filter e c => e.subExprs ++ c.allSubExprs
  | .project es c => listSubExprs es ++ c.allSubExprs
  | .innerJoin l r cond => cond.subExprs ++ l.allSubExprs ++ r.allSubExprs
  | .resolvedTable _ => []
  | .unresolvedTable _ => []
  | .releaser c _ => c.allSubExprs
  | .insertInto c => c.allSubExprs
  | .createIndex c => c.allSubExprs

/-- All nodes of the tree in the pre-order `plan.Inspect` visits them. -/
def Node.preNodes : Node → List Node
  | .filter e c => .filter e c :: c.preNodes
  | .project es c => .project es c :: c.preNodes
  | .innerJoin l r cond => .innerJoin l r cond :: (l.preNodes ++ r.preNodes)
  | .resolvedTable t => [.resolvedTable t]
  | .unresolvedTable nm => [.unresolvedTable nm]
  | .releaser c hs => .releaser c hs :: c.preNodes
  | .insertInto c => .insertInto c :: c.preNodes
  | .createIndex c => .createIndex c :: c.preNodes

/-! ### Column usage collection -/

/-- Appends a name to the entry of a string-keyed association table,
creating the entry at the end when the key is absent (the Go code uses a map
from table name to a slice and appends to it). -/
def assocAppendS (l : List (String × List String)) (k : String) (v : String) :
    List (String × List String) :=
  match l with
  | [] => [(k, [v])]
  | (k2, vs) :: rest =>
    if k2 = k then (k2, vs ++ [v]) :: rest else (k2, vs) :: assocAppendS rest k v

/-- Same, collecting expressions instead of names. -/
def assocAppendE (l : List (String × List Expression)) (k : String) (v : Expression) :
    List (String × List Expression) :=
  match l with
  | [] => [(k, [v])]
  | (k2, vs) :: rest =>
    if k2 = k then (k2, vs ++ [v]) :: rest else (k2, vs) :: assocAppendE rest k v

/-- Lookup in a string-keyed association table of name lists; a missing key
yields the empty list, as a Go map read does. -/
def lookupTable (l : List (String × List String)) (k : String) : List String :=
  match l with
  | [] => []
  | (k2, vs) :: rest => if k2 = k then vs else lookupTable rest k

/-- Lookup in a string-keyed association table of expression lists. -/
def lookupExprs (l : List (String × List Expression)) (k : String) : List Expression :=
  match l with
  | [] => []
  | (k2, vs) :: rest => if k2 = k then vs else lookupExprs rest k

/-- The state of the column usage collection: the set of (table, field)
pairs already seen, the per-table ordered column names, and the per-table
field-reference expressions (Go: `tableFields`, `fieldsByTable`,
`exprsByTable` in `pushdown`). -/
structure CollectState where
  tableFields : List (String × String)
  fieldsByTable : List (String × List String)
  exprsByTable : List (String × List Expression)

/-- One step of the collection callback of `plan.InspectExpressions`: a
field-reference whose (table, field) pair is new is recorded in all three
collections; everything else is ignored. -/
def collectStep (st : CollectState) (e : Expression) : CollectState :=
  match e with
  | .getField _ _ tb nm _ =>
    if (tb, nm) ∈ st.tableFields then st
    else
      ⟨(tb, nm) :: st.tableFields,
       assocAppendS st.fieldsByTable tb nm,
       assocAppendE st.exprsByTable tb e⟩
  | _ => st

/-- The column usage collection phase of `pushdown`: fold the callback over
every subexpression of the tree in inspection order. -/
def collectFields (n : Node) : CollectState :=
  n.allSubExprs.foldl collectStep ⟨[], [], []⟩

/-- First-occurrence deduplication relative to a list of already-seen
elements: the order of first occurrences is kept, later duplicates are
dropped. -/
def firstDedupFrom [DecidableEq α] (seen : List α) : List α → List α
  | [] => []
  | a :: rest =>
    if a ∈ seen then firstDedupFrom seen rest
    else a :: firstDedupFrom (a :: seen) rest

/-- The column names referenced for table `t` by the given expressions, in
order, from field-references only. -/
def namesFor (t : String) (es : List Expression) : List String :=
  es.filterMap fun e =>
    match e with
    | .getField _ _ tb nm _ => if tb = t then some nm else none
    | _ => none

/-- Per-table view of the collection, stated directly from the claim: walk
the subexpressions once, remember every (table, field) pair at its first
occurrence, ignore later occurrences of the same pair, and list for table
`t` the names so kept, in order. -/
def auxNew (t : String) (seen : List (String × String)) : List Expression → List String
  | [] => []
  | e :: es =>
    match e with
    | .getField _ _ tb nm _ =>
      if (tb, nm) ∈ seen then auxNew t seen es
      else if tb = t then nm :: auxNew t ((tb, nm) :: seen) es
      else auxNew t ((tb, nm) :: seen) es
    | _ => auxNew t seen es

/-! ### Filter collection and predicate splitting -/

/-- Whether an expression is a conjunction node. -/
def Expression.isAnd : Expression → Bool
  | .and _ _ => true
  | _ => false

/-- Modelled from the spec: `splitExpression` (analyzer filters helper, not
among the provided sources) splits a conjunctive predicate into its maximal
list of non-conjunctive conjuncts, recursing through nested conjunctions; a
non-conjunctive predicate yields a single-element list. -/
def splitExpression : Expression → List Expression
  | .and l r => splitExpression l ++ splitExpression r
  | .getField i ty tb nm nu => [.getField i ty tb nm nu]
  | .literal v => [.literal v]
  | .or l r => [.or l r]
  | .eq l r => [.eq l r]

/-- Modelled from the spec: `expression.JoinAnd` (not among the provided
sources) re-joins a list of conjuncts into a single predicate by
conjunction. -/
def joinAnd : List Expression → Expression
  | [] => .literal 0
  | [e] => e
  | e :: rest => .and e (joinAnd rest)

/-- Modelled from the spec: `getUnhandledFilters` (analyzer filters helper,
not among the provided sources) keeps, in order, the conjuncts not present
in the handled set. -/
def getUnhandledFilters (all handled : List Expression) : List Expression :=
  match all with
  | [] => []
  | f :: rest =>
    if f ∈ handled then getUnhandledFilters rest handled
    else f :: getUnhandledFilters rest handled

/-- The distinct source tables mentioned by the field-references of an
expression. -/
def tablesOfExpr (e : Expression) : List String :=
  firstDedupFrom []
    (e.subExprs.filterMap fun s =>
      match s with
      | .getField _ _ tb _ _ => some tb
      | _ => none)

/-- A table filter set: table tag mapped to the single-table conjuncts
gathered for it. -/
abbrev TableFilterSet := List (String × List Expression)

/-- Appends conjuncts to the entry of a table filter set. -/
def assocAppendMany (l : TableFilterSet) (k : String) (vs : List Expression) :
    TableFilterSet :=
  match l with
  | [] => [(k, vs)]
  | (k2, ws) :: rest =>
    if k2 = k then (k2, ws ++ vs) :: rest else (k2, ws) :: assocAppendMany rest k vs

/-- Lookup in a table filter set; a missing key yields the empty list. -/
def lookupFilters (l : TableFilterSet) (k : String) : List Expression :=
  match l with
  | [] => []
  | (k2, vs) :: rest => if k2 = k then vs else lookupFilters rest k

/-- Modelled from the spec: `exprToTableFilters` (analyzer filters helper,
not among the provided sources) splits a filter predicate into conjuncts and
groups by table those mentioning exactly one table; conjuncts mentioning
zero or several tables are excluded from every set. -/
def exprToTableFilters (e : Expression) : TableFilterSet :=
  (splitExpression e).foldl
    (fun fs conj =>
      match tablesOfExpr conj with
      | [t] => assocAppendMany fs t [conj]
      | _ => fs)
    []

/-- Modelled from the spec: `filters.merge` (analyzer filters helper, not
among the provided sources) merges a second table filter set into the first,
appending per table. -/
def mergeFilters (a b : TableFilterSet) : TableFilterSet :=
  b.foldl (fun acc kv => assocAppendMany acc kv.1 kv.2) a

/-- The filter collection phase of `pushdown`: every filter node's predicate
is decomposed and merged into one table filter set, in inspection order. -/
def collectFilters (n : Node) : TableFilterSet :=
  n.preNodes.foldl
    (fun fs node =>
      match node with
      | .filter e _ => mergeFilters fs (exprToTableFilters e)
      | _ => fs)
    []

/-! ### The bottom-up rewrite -/

/-- Whether a node owns expressions (Go: the `sql.Expressioner` type
assertion in the default case of the rewrite). -/
def Node.isExpressioner : Node → Bool
  | .filter _ _ => true
  | .project _ _ => true
  | .innerJoin _ _ _ => true
  | _ => false

/-- Applies the per-expression transform to each owned expression of a node
and rebuilds it (the expression-transform variant of the node contract used
by the rewrite's default case). -/
def mapFixList (f : Expression → Except SqlError Expression) :
    List Expression → Except SqlError (List Expression)
  | [] => .ok []
  | e :: es =>
    match f e with
    | .error er => .error er
    | .ok e2 =>
      match mapFixList f es with
      | .error er => .error er
      | .ok es2 => .ok (e2 :: es2)

/-- Go: `Expressioner.TransformExpressions` — each owned expression is
passed whole to the transform, the node is rebuilt around the results. -/
def Node.transformExpressions (f : Expression → Except SqlError Expression) :
    Node → Except SqlError Node
  | .filter e c =>
    match f e with
    | .error er => .error er
    | .ok e2 => .ok (.filter e2 c)
  | .project es c =>
    match mapFixList f es with
    | .error er => .error er
    | .ok es2 => .ok (.project es2 c)
  | .innerJoin l r cond =>
    match f cond with
    | .error er => .error er
    | .ok c2 => .ok (.innerJoin l r c2)
  | n => .ok n

/-- The inner loop of the rewrite's default case: try fixup against each
candidate schema in order; the first success wins, a field-missing failure
advances to the next schema, any other failure is fatal, and exhausting all
candidates returns the expression unchanged without error. -/
def tryFixSchemas (schemas : List (List Column)) (e : Expression) :
    Except SqlError Expression :=
  match schemas with
  | [] => .ok e
  | schema :: rest =>
    match fixFieldIndexes schema e with
    | .ok fixed => .ok fixed
    | .error err =>
      if err.isFieldMissing then tryFixSchemas rest e else .error err

/-- The state threaded through the rewrite: the globally recorded handled
conjuncts and the index handles consumed so far (Go: the `handledFilters`
and `queryIndexes` variables captured by the transform closure). -/
structure PDState where
  handledFilters : List Expression
  queryIndexes : List IndexHandle

/-- The default case of the rewrite callback: a node owning expressions and
at least one child has each owned expression re-indexed against the
children's schemas; an inner join additionally re-fixes its condition
against its own recombined schema. -/
def pdDefault (node : Node) (s : PDState) : Except SqlError Node × PDState :=
  if node.isExpressioner = false then (.ok node, s)
  else
    let schemas := node.childrenL.map Node.schema
    if schemas.length < 1 then (.ok node, s)
    else
      match node.transformExpressions (tryFixSchemas schemas) with
      | .error e => (.error e, s)
      | .ok n2 =>
        match n2 with
        | .innerJoin l r cond =>
          match fixFieldIndexes (Node.schema (.innerJoin l r cond)) cond with
          | .error e => (.error e, s)
          | .ok cond2 => (.ok (.innerJoin l r cond2), s)
        | n2 => (.ok n2, s)

/-- Lookup of an index assignment entry (Go: `indexes[node.Name()]`). -/
def lookupIL (l : List (String × IndexLookup)) (k : String) : Option IndexLookup :=
  match l with
  | [] => none
  | (k2, v) :: rest => if k2 = k then some v else lookupIL rest k

/-- The rewrite callback of `pushdown` (the closure passed to
`n.TransformUp`): filter nodes drop globally handled conjuncts, resolved
base tables receive filters, projection and index lookup, and any other
expression-bearing node has its expressions re-indexed. -/
def pdTransform (fieldsByTable : List (String × List String)) (fs : TableFilterSet)
    (indexes : List (String × IndexLookup)) (node : Node) (s : PDState) :
    Except SqlError Node × PDState :=
  match node with
  | .filter expr child =>
    if s.handledFilters.isEmpty then (.ok (.filter expr child), s)
    else
      let unhandled := getUnhandledFilters (splitExpression expr) s.handledFilters
      if unhandled.isEmpty then (.ok child, s)
      else (.ok (.filter (joinAnd unhandled) child), s)
  | .resolvedTable t =>
    let step1 : Except SqlError Table × PDState :=
      match t.handledF with
      | some hf =>
        let tableFilters := lookupFilters fs t.name
        let handled := hf tableFilters
        let s1 : PDState := ⟨s.handledFilters ++ handled, s.queryIndexes⟩
        match fixFieldIndexesOnExpressions (Node.resolvedTable t).schema handled with
        | .error e => (.error e, s1)
        | .ok fixed => (.ok (t.withFilters fixed), s1)
      | none => (.ok t, s)
    match step1 with
    | (.error e, s1) => (.error e, s1)
    | (.ok t1, s1) =>
      let t2 := if t1.projCap then t1.withProjection (lookupTable fieldsByTable t.name) else t1
      match (if t2.idxCap then lookupIL indexes t.name else none) with
      | some il =>
        (.ok (.resolvedTable (t2.withIndexLookup il.lookup)),
         ⟨s1.handledFilters, s1.queryIndexes ++ il.indexes⟩)
      | none => (.ok (.resolvedTable t2), s1)
  | node => pdDefault node s

/-- Go: `Node.TransformUp` with the stateful callback made explicit —
children are transformed first (left to right, threading the state), the
node is rebuilt, and the callback is applied to the reconstructed node;
errors short-circuit but the state accumulated so far is kept, as the Go
closure's captured variables are. -/
def Node.transformUpS (f : Node → PDState → Except SqlError Node × PDState) :
    Node → PDState → Except SqlError Node × PDState
  | .filter e c, s =>
    match c.transformUpS f s with
    | (.error er, s2) => (.error er, s2)
    | (.ok c2, s2) => f (.filter e c2) s2
  | .project es c, s =>
    match c.transformUpS f s with
    | (.error er, s2) => (.error er, s2)
    | (.ok c2, s2) => f (.project es c2) s2
  | .innerJoin l r cond, s =>
    match l.transformUpS f s with
    | (.error er, s2) => (.error er, s2)
    | (.ok l2, s2) =>
      match r.transformUpS f s2 with
      | (.error er, s3) => (.error er, s3)
      | (.ok r2, s3) => f (.innerJoin l2 r2 cond) s3
  | .resolvedTable t, s => f (.resolvedTable t) s
  | .unresolvedTable nm, s => f (.unresolvedTable nm) s
  | .releaser c hs, s =>
    match c.transformUpS f s with
    | (.error er, s2) => (.error er, s2)
    | (.ok c2, s2) => f (.releaser c2 hs) s2
  | .insertInto c, s =>
    match c.transformUpS f s with
    | (.error er, s2) => (.error er, s2)
    | (.ok c2, s2) => f (.insertInto c2) s2
  | .createIndex c, s =>
    match c.transformUpS f s with
    | (.error er, s2) => (.error er, s2)
    | (.ok c2, s2) => f (.createIndex c2) s2

/-- Whether pushdown skips the node kind outright (Go: the type switch on
`*plan.InsertInto, *plan.CreateIndex`). -/
def isInsertOrCreate : Node → Bool
  | .insertInto _ => true
  | .createIndex _ => true
  | _ => false

/-- The analysis plus rewrite core of `pushdown`: collect column usage and
filters over the original tree, then run the bottom-up rewrite with the
given index assignment. -/
def pushdownCore (idx : List (String × IndexLookup)) (n : Node) :
    Except SqlError Node × PDState :=
  n.transformUpS (pdTransform (collectFields n).fieldsByTable (collectFilters n) idx) ⟨[], []⟩

/-- The observable outcome of a `pushdown` run: the returned node or error,
the index handles recorded in `queryIndexes` when the pass returned, and the
handles actually released on the way out (the `release` closure runs only on
the error exit; on success the handles are carried by the releaser
wrapper). -/
structure PDResult where
  out : Except SqlError Node
  recorded : List IndexHandle
  released : List IndexHandle

/-- The pushdown pass (Go: `pushdown`).  The index assignment provider is an
external collaborator; its outcome is the `aidx` argument. -/
def pushdown (aidx : Except SqlError (List (String × IndexLookup))) (n : Node) :
    PDResult :=
  if n.resolvedB = false then ⟨.ok n, [], []⟩
  else if isInsertOrCreate n then ⟨.ok n, [], []⟩
  else
    match aidx with
    | .error e => ⟨.error e, [], []⟩
    | .ok idx =>
      match pushdownCore idx n with
      | (.error e, st) => ⟨.error e, st.queryIndexes, st.queryIndexes⟩
      | (.ok node, st) =>
        if st.queryIndexes.isEmpty then ⟨.ok node, st.queryIndexes, []⟩
        else ⟨.ok (.releaser node st.queryIndexes), st.queryIndexes, []⟩

/-! ### The releaser wrapper and its row iterator -/

/-- A row, opaque for the purposes of the lifecycle claims. -/
abbrev Row := Nat

/-- The child row iterator the releaser wraps: the finite list of rows it
still has to produce, the terminal error its `Next` returns once they are
exhausted (end-of-rows is an error by the iterator convention), and a count
of how many times its own `Close` has been invoked. -/
structure ChildIter where
  rows : List Row
  terminalErr : SqlError
  closeCount : Nat

/-- Go: the wrapped iterator's `Next`. -/
def ChildIter.Next (c : ChildIter) : Except SqlError Row × ChildIter :=
  match c.rows with
  | r :: rest => (.ok r, ⟨rest, c.terminalErr, c.closeCount⟩)
  | [] => (.error c.terminalErr, c)

/-- Go: the wrapped iterator's `Close`. -/
def ChildIter.Close (c : ChildIter) : Option SqlError × ChildIter :=
  (none, ⟨c.rows, c.terminalErr, c.closeCount + 1⟩)

/-- Go: `releaseIter` — the decorator around the child iterator, with the
`sync.Once` guard made an explicit flag and the release callback's
invocations counted. -/
structure ReleaseIter where
  child : ChildIter
  releaseCount : Nat
  onceDone : Bool

/-- Go: `releaseIter.Close` — runs the release callback under the once
guard and always returns nil; the child iterator is not touched. -/
def ReleaseIter.Close (i : ReleaseIter) : Option SqlError × ReleaseIter :=
  if i.onceDone then (none, i)
  else (none, ⟨i.child, i.releaseCount + 1, true⟩)

/-- Go: `releaseIter.Next` — pulls from the child; on any error it invokes
its own `Close` (discarding the result) and propagates the error, and on
success it propagates the row unchanged. -/
def ReleaseIter.Next (i : ReleaseIter) : Except SqlError Row × ReleaseIter :=
  match ChildIter.Next i.child with
  | (.ok r, c2) => (.ok r, ⟨c2, i.releaseCount, i.onceDone⟩)
  | (.error e, c2) =>
    (Except.error e, (ReleaseIter.Close ⟨c2, i.releaseCount, i.onceDone⟩).2)

/-- Go: `releaser.RowIter` — when the child's row iterator construction
fails, the release callback fires immediately and the error propagates;
otherwise the child's iterator is wrapped.  The second component counts the
release invocations performed during construction. -/
def releaserRowIter (construct : Except SqlError ChildIter) :
    Except SqlError ReleaseIter × Nat :=
  match construct with
  | .error e => (.error e, 1)
  | .ok c => (.ok ⟨c, 0, false⟩, 0)

/-- One consumer operation on the releasing iterator. -/
inductive IterOp where
  | next
  | close
deriving DecidableEq, Repr

/-- Runs a sequence of consumer operations against the releasing
iterator. -/
def runOps : List IterOp → ReleaseIter → ReleaseIter
  | [], i => i
  | IterOp.next :: ops, i => runOps ops (ReleaseIter.Next i).2
  | IterOp.close :: ops, i => runOps ops (ReleaseIter.Close i).2

/-- The number of `Next` calls in a trace. -/
def countNext : List IterOp → Nat
  | [] => 0
  | IterOp.next :: ops => countNext ops + 1
  | IterOp.close :: ops => countNext ops

/-! ### The unresolved-table placeholder -/

/-- An execution context (opaque for these claims). -/
structure Ctx where
  pid : Nat

/-- Go: `plan.UnresolvedTable` — a placeholder carrying only a name. -/
structure UnresolvedTable where
  name : String

/-- Go: `UnresolvedTable.Resolved`, always false. -/
def UnresolvedTable.Resolved (_ : UnresolvedTable) : Bool := false

/-- Go: `UnresolvedTable.Children`, always empty. -/
def UnresolvedTable.Children (_ : UnresolvedTable) : List Node := []

/-- Go: `UnresolvedTable.Schema`, always empty. -/
def UnresolvedTable.Schema (_ : UnresolvedTable) : List Column := []

/-- Go: `UnresolvedTable.RowIter`, always failing with the unresolved-table
error and producing no row sequence. -/
def UnresolvedTable.RowIter (_ : UnresolvedTable) (_ : Ctx) :
    Except SqlError ChildIter :=
  .error SqlError.unresolvedTable

/-! ## Theorems -/

/-! ### Helper lemmas about the releasing iterator -/

/-- Once the release guard has fired, no further operation changes the
release count or resets the guard. -/
theorem runOps_done (ops : List IterOp) :
    ∀ i : ReleaseIter, i.onceDone = true →
      (runOps ops i).releaseCount = i.releaseCount ∧ (runOps ops i).onceDone = true := by
  induction ops with
  | nil => exact fun i h => ⟨rfl, h⟩
  | cons op ops ih =>
    intro i h
    cases op with
    | next =>
      have hstep : (ReleaseIter.Next i).2.releaseCount = i.releaseCount ∧
          (ReleaseIter.Next i).2.onceDone = true := by
        rcases i with ⟨⟨rows, te, cc⟩, rc, od⟩
        cases rows <;>
          simp_all [ReleaseIter.Next, ChildIter.Next, ReleaseIter.Close]
      have := ih (ReleaseIter.Next i).2 hstep.2
      simpa [runOps, hstep.1, hstep.2] using this
    | close =>
      have hstep : (ReleaseIter.Close i).2 = i := by
        simp [ReleaseIter.Close, h]
      have := ih (ReleaseIter.Close i).2 (by rw [hstep]; exact h)
      simpa [runOps, hstep] using this

/-- Release count of a run starting from a fresh releasing iterator: one
exactly when the trace closes the iterator or pulls past the last row. -/
theorem runOps_fresh (ops : List IterOp) :
    ∀ (rows : List Row) (te : SqlError) (cc : Nat),
      (runOps ops ⟨⟨rows, te, cc⟩, 0, false⟩).releaseCount =
        if IterOp.close ∈ ops ∨ rows.length < countNext ops then 1 else 0 := by
  induction ops with
  | nil => intro rows te cc; simp [runOps, countNext]
  | cons op ops ih =>
    intro rows te cc
    cases op with
    | close =>
      have h1 : (ReleaseIter.Close ⟨⟨rows, te, cc⟩, 0, false⟩).2 =
          ⟨⟨rows, te, cc⟩, 1, true⟩ := by
        simp [ReleaseIter.Close]
      have h2 := (runOps_done ops ⟨⟨rows, te, cc⟩, 1, true⟩ rfl).1
      simp [runOps, h1, h2, List.mem_cons]
    | next =>
      cases rows with
      | nil =>
        have h1 : (ReleaseIter.Next ⟨⟨[], te, cc⟩, 0, false⟩).2 =
            ⟨⟨[], te, cc⟩, 1, true⟩ := by
          simp [ReleaseIter.Next, ChildIter.Next, ReleaseIter.Close]
        have h2 := (runOps_done ops ⟨⟨[], te, cc⟩, 1, true⟩ rfl).1
        simp [runOps, h1, h2, countNext]
      | cons r rest =>
        have h1 : (ReleaseIter.Next ⟨⟨r :: rest, te, cc⟩, 0, false⟩).2 =
            ⟨⟨rest, te, cc⟩, 0, false⟩ := by
          simp [ReleaseIter.Next, ChildIter.Next]
        rw [runOps, h1, ih]
        simp [countNext, List.mem_cons, Nat.succ_lt_succ_iff]

/-- C1: a run of the pushdown pass that consumed index handles wraps the row
sequence so that the release callback fires exactly once per produced
sequence, at the first of: failed iterator construction (immediately), a
`Next` error (including normal end of rows), or an explicit `Close`; a
repeated `Close`, or a failure followed by a `Close`, never fires it a
second time. -/
theorem releaser_release_exactly_once :
    (∀ e : SqlError, releaserRowIter (.error e) = (.error e, 1)) ∧
    (∀ c : ChildIter, releaserRowIter (.ok c) = (.ok ⟨c, 0, false⟩, 0)) ∧
    (∀ (rows : List Row) (te : SqlError) (cc : Nat) (ops : List IterOp),
      (runOps ops ⟨⟨rows, te, cc⟩, 0, false⟩).releaseCount =
        if IterOp.close ∈ ops ∨ rows.length < countNext ops then 1 else 0) :=
  ⟨fun _ => rfl, fun _ => rfl, fun rows te cc ops => runOps_fresh ops rows te cc⟩

/-- Neither `Next` nor `Close` of the releasing iterator ever invokes the
wrapped child iterator's `Close`. -/
theorem runOps_child_closeCount (ops : List IterOp) :
    ∀ i : ReleaseIter, (runOps ops i).child.closeCount = i.child.closeCount := by
  induction ops with
  | nil => exact fun _ => rfl
  | cons op ops ih =>
    intro i
    cases op with
    | next =>
      have hstep : (ReleaseIter.Next i).2.child.closeCount = i.child.closeCount := by
        rcases i with ⟨⟨rows, te, cc⟩, rc, od⟩
        cases rows <;> cases od <;>
          simp [ReleaseIter.Next, ChildIter.Next, ReleaseIter.Close]
      rw [runOps, ih, hstep]
    | close =>
      have hstep : (ReleaseIter.Close i).2.child.closeCount = i.child.closeCount := by
        rcases i with ⟨⟨rows, te, cc⟩, rc, od⟩
        cases od <;> simp [ReleaseIter.Close]
      rw [runOps, ih, hstep]

/-- C10: closing the releasing row sequence always returns nil, and no
sequence of consumer operations (including failing `Next` calls and repeated
`Close` calls) ever invokes `Close` on the wrapped child row iterator: only
the release callback runs. -/
theorem releaseIter_close_nil_and_child_untouched :
    (∀ i : ReleaseIter, (ReleaseIter.Close i).1 = none) ∧
    (∀ (ops : List IterOp) (i : ReleaseIter),
      (runOps ops i).child.closeCount = i.child.closeCount) := by
  constructor
  · intro i
    unfold ReleaseIter.Close
    split <;> rfl
  · exact fun ops i => runOps_child_closeCount ops i

/-! ### The unresolved-table placeholder -/

/-- C8: the unresolved-table placeholder reports unresolved, has no children
and no schema, and its row iteration always fails with the unresolved-table
error (producing no row sequence), for every execution context; as a plan
node it likewise reports unresolved. -/
theorem unresolvedTable_contract (u : UnresolvedTable) (ctx : Ctx) :
    u.Resolved = false ∧ u.Children = [] ∧ u.Schema = [] ∧
    u.RowIter ctx = .error SqlError.unresolvedTable ∧
    Node.resolvedB (.unresolvedTable u.name) = false :=
  ⟨rfl, rfl, rfl, rfl, rfl⟩

/-! ### Early exits of the pass -/

/-- C9: on a plan that is not fully resolved, or on an insert / create-index
statement, the pushdown pass returns the input node itself with no error, no
index handle is recorded or released, and the outcome of the index
assignment provider is never consulted. -/
theorem pushdown_skips_unresolved_and_statements
    (aidx : Except SqlError (List (String × IndexLookup))) (n : Node)
    (h : n.resolvedB = false ∨ isInsertOrCreate n = true) :
    pushdown aidx n = ⟨.ok n, [], []⟩ := by
  rcases h with h | h
  · simp [pushdown, h]
  · by_cases hr : n.resolvedB = false
    · simp [pushdown, hr]
    · simp [pushdown, hr, h]

/-- Witness for C9: a concrete unresolved input, with the index assignment
provider failing, is returned untouched. -/
theorem pushdown_skips_unresolved_and_statements_witness :
    pushdown (.error (.other "boom")) (.unresolvedTable "foo") =
      ⟨.ok (.unresolvedTable "foo"), [], []⟩ :=
  pushdown_skips_unresolved_and_statements (.error (.other "boom"))
    (.unresolvedTable "foo") (Or.inl rfl)

/-! ### Splitting and rejoining conjuncts -/

/-- Splitting never produces an empty conjunct list. -/
theorem splitExpression_ne_nil : ∀ e : Expression, splitExpression e ≠ [] := by
  intro e
  induction e <;> simp_all [splitExpression]

/-- Every conjunct produced by splitting is non-conjunctive. -/
theorem splitExpression_not_and :
    ∀ (e x : Expression), x ∈ splitExpression e → x.isAnd = false := by
  intro e
  induction e with
  | and l r ihl ihr =>
    intro x hx
    rcases List.mem_append.mp hx with h | h
    · exact ihl x h
    · exact ihr x h
  | getField i ty tb nm nu => intro x hx; simp [splitExpression] at hx; simp [hx, Expression.isAnd]
  | literal v => intro x hx; simp [splitExpression] at hx; simp [hx, Expression.isAnd]
  | or l r ihl ihr => intro x hx; simp [splitExpression] at hx; simp [hx, Expression.isAnd]
  | eq l r ihl ihr => intro x hx; simp [splitExpression] at hx; simp [hx, Expression.isAnd]

/-- A non-conjunctive expression splits to itself alone. -/
theorem splitExpression_of_not_and (x : Expression) (h : x.isAnd = false) :
    splitExpression x = [x] := by
  cases x <;> simp_all [splitExpression, Expression.isAnd]

/-- Rejoining a nonempty list of non-conjunctive conjuncts and re-splitting
recovers exactly the list. -/
theorem splitExpression_joinAnd :
    ∀ l : List Expression, (∀ x ∈ l, x.isAnd = false) → l ≠ [] →
      splitExpression (joinAnd l) = l := by
  intro l
  induction l with
  | nil => intro _ h; exact absurd rfl h
  | cons x rest ih =>
    intro hall _
    cases rest with
    | nil =>
      rw [show joinAnd [x] = x from rfl]
      exact splitExpression_of_not_and x (hall x (by simp))
    | cons y rest2 =>
      rw [show joinAnd (x :: y :: rest2) = .and x (joinAnd (y :: rest2)) from rfl]
      rw [show splitExpression (.and x (joinAnd (y :: rest2)))
            = splitExpression x ++ splitExpression (joinAnd (y :: rest2)) from rfl]
      rw [splitExpression_of_not_and x (hall x (by simp)),
        ih (fun z hz => hall z (List.mem_cons_of_mem x hz)) (by simp)]
      rfl

/-- Conjuncts surviving the handled-set subtraction come from the original
list. -/
theorem mem_getUnhandledFilters :
    ∀ (all handled : List Expression) (x : Expression),
      x ∈ getUnhandledFilters all handled → x ∈ all := by
  intro all
  induction all with
  | nil => intro handled x hx; simp [getUnhandledFilters] at hx
  | cons f rest ih =>
    intro handled x hx
    by_cases hf : f ∈ handled
    · simp only [getUnhandledFilters, if_pos hf] at hx
      exact List.mem_cons_of_mem f (ih handled x hx)
    · simp only [getUnhandledFilters, if_neg hf] at hx
      rcases List.mem_cons.mp hx with h | h
      · exact h ▸ List.mem_cons_self f rest
      · exact List.mem_cons_of_mem f (ih handled x h)

/-- An empty handled set drops nothing. -/
theorem getUnhandledFilters_nil (all : List Expression) :
    getUnhandledFilters all [] = all := by
  induction all with
  | nil => rfl
  | cons f rest ih => simp [getUnhandledFilters, ih]

/-- C4: when the rewrite reaches a filter node, the predicate's conjuncts
not in the globally recorded handled set are computed; if none remains the
node is replaced by its child, and otherwise the result is a filter node
over the same child whose predicate is a conjunction of exactly the
remaining conjuncts (its re-split equals the remaining list); the rewrite
state is unchanged. -/
theorem pushdown_filter_node (fieldsByTable : List (String × List String))
    (fs : TableFilterSet) (indexes : List (String × IndexLookup))
    (expr : Expression) (child : Node) (s : PDState) :
    ∃ r, pdTransform fieldsByTable fs indexes (.filter expr child) s = (.ok r, s) ∧
      (if (getUnhandledFilters (splitExpression expr) s.handledFilters).isEmpty
       then r = child
       else ∃ p, r = .filter p child ∧
         splitExpression p = getUnhandledFilters (splitExpression expr) s.handledFilters) := by
  by_cases hh : s.handledFilters.isEmpty
  · refine ⟨.filter expr child, ?_, ?_⟩
    · simp [pdTransform, hh]
    · have hnil : s.handledFilters = [] := List.isEmpty_iff.mp hh
      rw [hnil, getUnhandledFilters_nil]
      have : (splitExpression expr).isEmpty = false := by
        cases hsp : splitExpression expr with
        | nil => exact absurd hsp (splitExpression_ne_nil expr)
        | cons a l => rfl
      rw [if_neg (by simp [this])]
      exact ⟨expr, rfl, rfl⟩
  · cases hu : (getUnhandledFilters (splitExpression expr) s.handledFilters).isEmpty
    · refine ⟨.filter (joinAnd (getUnhandledFilters (splitExpression expr) s.handledFilters)) child, ?_, ?_⟩
      · simp [pdTransform, hh, hu]
      · rw [if_neg (by simp [hu])]
        refine ⟨_, rfl, ?_⟩
        refine splitExpression_joinAnd _ ?_ ?_
        · intro x hx
          exact splitExpression_not_and expr x (mem_getUnhandledFilters _ _ x hx)
        · intro hcon
          rw [hcon] at hu
          simp [List.isEmpty] at hu
    · refine ⟨child, ?_, ?_⟩
      · simp [pdTransform, hh, hu]
      · rw [if_pos (by simp [hu])]

/-! ### The multi-schema fixup search of the generic rewrite case -/

/-- C2 counterexample: a projection node whose only expression references a
column present in no child schema.  Fixup against the single candidate
schema fails with field-missing, yet the pushdown pass does not abort: it
returns the tree unchanged and no error at all. -/
theorem pushdown_exhausted_schemas_no_abort :
    fixFieldIndexes [⟨"a", "t", "int", false⟩] (.getField 0 "int" "u" "y" false) =
      .error (.fieldMissing "y") ∧
    (pushdown (.ok [])
        (.project [.getField 0 "int" "u" "y" false]
          (.resolvedTable ⟨"t", [⟨"a", "t", "int", false⟩], none, false, false, [], none, none⟩))).out =
      .ok (.project [.getField 0 "int" "u" "y" false]
          (.resolvedTable ⟨"t", [⟨"a", "t", "int", false⟩], none, false, false, [], none, none⟩)) ∧
    (pushdown (.ok [])
        (.project [.getField 0 "int" "u" "y" false]
          (.resolvedTable ⟨"t", [⟨"a", "t", "int", false⟩], none, false, false, [], none, none⟩))).out ≠
      .error (.fieldMissing "y") :=
  ⟨rfl, rfl, fun h => Except.noConfusion h⟩

/-- C2 (amended): during the generic rewrite case each owned expression is
fixed up against the candidate schemas in order; a field-missing failure
advances to the next candidate, the first success wins, and when every
candidate yields a field-missing failure the expression is returned
unchanged and no error is raised (the pass does not abort). -/
theorem tryFixSchemas_search (schemas pre post : List (List Column))
    (sc : List Column) (e fx : Expression) :
    ((∀ s2 ∈ schemas, ∃ nm, fixFieldIndexes s2 e = .error (.fieldMissing nm)) →
      tryFixSchemas schemas e = .ok e) ∧
    ((∀ s2 ∈ pre, ∃ nm, fixFieldIndexes s2 e = .error (.fieldMissing nm)) →
      fixFieldIndexes sc e = .ok fx →
      tryFixSchemas (pre ++ sc :: post) e = .ok fx) := by
  constructor
  · induction schemas with
    | nil => intro _; rfl
    | cons s2 rest ih =>
      intro hall
      rcases hall s2 (List.mem_cons_self s2 rest) with ⟨nm, hs⟩
      have hrest : ∀ s3 ∈ rest, ∃ nm2, fixFieldIndexes s3 e = .error (.fieldMissing nm2) :=
        fun s3 hs3 => hall s3 (List.mem_cons_of_mem s2 hs3)
      simp only [tryFixSchemas, hs, SqlError.isFieldMissing, if_pos]
      exact ih hrest
  · induction pre with
    | nil =>
      intro _ hfix
      simp only [List.nil_append, tryFixSchemas, hfix]
    | cons s2 rest ih =>
      intro hall hfix
      rcases hall s2 (List.mem_cons_self s2 rest) with ⟨nm, hs⟩
      have hrest : ∀ s3 ∈ rest, ∃ nm2, fixFieldIndexes s3 e = .error (.fieldMissing nm2) :=
        fun s3 hs3 => hall s3 (List.mem_cons_of_mem s2 hs3)
      simp only [List.cons_append, tryFixSchemas, hs, SqlError.isFieldMissing, if_pos]
      exact ih hrest hfix

/-- Witness for the amended C2: with one candidate schema lacking the
referenced column the expression survives unchanged; with a second candidate
supplying it, fixup against that schema wins. -/
theorem tryFixSchemas_search_witness :
    tryFixSchemas [[⟨"a", "t", "int", false⟩]] (.getField 0 "int" "u" "y" false) =
      .ok (.getField 0 "int" "u" "y" false) ∧
    tryFixSchemas
        ([[⟨"a", "t", "int", false⟩]] ++
          [⟨"b", "u", "bool", true⟩, ⟨"y", "u", "int", false⟩] :: [])
        (.getField 0 "int" "u" "y" false) =
      .ok (.getField 1 "int" "u" "y" false) := by
  have hall : ∀ s2 ∈ [[(⟨"a", "t", "int", false⟩ : Column)]],
      ∃ nm, fixFieldIndexes s2 (.getField 0 "int" "u" "y" false) =
        .error (.fieldMissing nm) := by
    intro s2 hs2
    rw [List.mem_singleton.mp hs2]
    exact ⟨"y", rfl⟩
  exact ⟨(tryFixSchemas_search [[⟨"a", "t", "int", false⟩]] [] []
      [] (.getField 0 "int" "u" "y" false) (.getField 0 "int" "u" "y" false)).1 hall,
    (tryFixSchemas_search [] [[⟨"a", "t", "int", false⟩]] []
      [⟨"b", "u", "bool", true⟩, ⟨"y", "u", "int", false⟩]
      (.getField 0 "int" "u" "y" false) (.getField 1 "int" "u" "y" false)).2 hall rfl⟩

/-! ### Base-table rewriting: filters are fixed against the original schema -/

/-- C3: at a base table with the filter-acceptor capability, the conjuncts
the table reports as handled are fixed up against the table's original
(pre-projection) schema and exactly that fixed list is installed through the
filter capability; this holds whether or not a projection capability then
prunes the table's row shape, and the handled conjuncts are recorded in the
global handled set. -/
theorem pushdown_table_fixup_pre_projection
    (fieldsByTable : List (String × List String)) (fs : TableFilterSet)
    (indexes : List (String × IndexLookup)) (t : Table)
    (hf : List Expression → List Expression) (s : PDState) (fixed : List Expression)
    (hcap : t.handledF = some hf)
    (hproj : t.projection = none)
    (hfix : fixFieldIndexesOnExpressions t.schema (hf (lookupFilters fs t.name)) = .ok fixed) :
    ∃ t2 s2,
      pdTransform fieldsByTable fs indexes (.resolvedTable t) s = (.ok (.resolvedTable t2), s2) ∧
      t2.filters = fixed ∧
      t2.projection = (if t.projCap then some (lookupTable fieldsByTable t.name) else none) ∧
      s2.handledFilters = s.handledFilters ++ hf (lookupFilters fs t.name) := by
  have hschema : (Node.resolvedTable t).schema = t.schema := by
    simp [Node.schema, Table.effSchema, hproj]
  simp only [pdTransform, hcap, hschema, hfix, Table.withFilters, Table.withProjection,
    Table.withIndexLookup]
  cases hpc : t.projCap with
  | false =>
    cases hic : t.idxCap with
    | false =>
      simp only [hpc, hic, Bool.false_eq_true, if_false]
      exact ⟨_, _, rfl, rfl, by simp [hpc, hproj], rfl⟩
    | true =>
      cases hil : lookupIL indexes t.name with
      | none =>
        simp only [hpc, hic, Bool.false_eq_true, if_false, if_true, hil]
        exact ⟨_, _, rfl, rfl, by simp [hpc, hproj], rfl⟩
      | some il =>
        simp only [hpc, hic, Bool.false_eq_true, if_false, if_true, hil]
        exact ⟨_, _, rfl, rfl, by simp [hpc, hproj], rfl⟩
  | true =>
    cases hic : t.idxCap with
    | false =>
      simp only [hpc, hic, Bool.false_eq_true, if_false, if_true]
      exact ⟨_, _, rfl, rfl, by simp [hpc], rfl⟩
    | true =>
      cases hil : lookupIL indexes t.name with
      | none =>
        simp only [hpc, hic, if_true, hil]
        exact ⟨_, _, rfl, rfl, by simp [hpc], rfl⟩
      | some il =>
        simp only [hpc, hic, if_true, hil]
        exact ⟨_, _, rfl, rfl, by simp [hpc], rfl⟩

/-- Witness for C3: a concrete filter-acceptor table with a projection
capability; the handled conjunct `t.a = 1`, collected with a stale index,
is re-indexed to position 0 of the original schema before installation. -/
theorem pushdown_table_fixup_pre_projection_witness :
    ∃ t2 s2,
      pdTransform [("t", ["a"])] [("t", [.eq (.getField 5 "int" "t" "a" false) (.literal 1)])] []
          (.resolvedTable ⟨"t", [⟨"a", "t", "int", false⟩, ⟨"b", "t", "int", false⟩],
            some (fun es => es), true, false, [], none, none⟩) ⟨[], []⟩ =
        (.ok (.resolvedTable t2), s2) ∧
      t2.filters = [.eq (.getField 0 "int" "t" "a" false) (.literal 1)] ∧
      t2.projection =
        (if (⟨"t", [⟨"a", "t", "int", false⟩, ⟨"b", "t", "int", false⟩],
            some (fun es => es), true, false, [], none, none⟩ : Table).projCap
         then some (lookupTable [("t", ["a"])] "t") else none) ∧
      s2.handledFilters = [] ++ [.eq (.getField 5 "int" "t" "a" false) (.literal 1)] :=
  pushdown_table_fixup_pre_projection [("t", ["a"])]
    [("t", [.eq (.getField 5 "int" "t" "a" false) (.literal 1)])] []
    ⟨"t", [⟨"a", "t", "int", false⟩, ⟨"b", "t", "int", false⟩],
      some (fun es => es), true, false, [], none, none⟩
    (fun es => es) ⟨[], []⟩ [.eq (.getField 0 "int" "t" "a" false) (.literal 1)]
    rfl rfl rfl

/-! ### Error exit of the pass -/

/-- C6: whenever the pushdown pass returns an error — because the index
assignment provider failed or because the rewrite traversal failed — it
returns no rewritten plan, the error is the one produced by the failing
step, and every index handle recorded before the abort is released on the
error exit. -/
theorem pushdown_error_releases_recorded
    (aidx : Except SqlError (List (String × IndexLookup))) (n : Node) :
    (∀ e : SqlError, (pushdown aidx n).out = .error e →
      (pushdown aidx n).released = (pushdown aidx n).recorded) ∧
    (∀ e : SqlError, aidx = .error e → n.resolvedB = true → isInsertOrCreate n = false →
      pushdown aidx n = ⟨.error e, [], []⟩) ∧
    (∀ (idx : List (String × IndexLookup)) (e : SqlError) (st : PDState),
      aidx = .ok idx → n.resolvedB = true → isInsertOrCreate n = false →
      pushdownCore idx n = (.error e, st) →
      pushdown aidx n = ⟨.error e, st.queryIndexes, st.queryIndexes⟩) := by
  refine ⟨?_, ?_, ?_⟩
  · intro e h
    by_cases h1 : n.resolvedB = false
    · simp [pushdown, h1] at h
    · by_cases h2 : isInsertOrCreate n = true
      · simp [pushdown, h1, h2] at h
      · cases aidx with
        | error e2 => simp [pushdown, h1, h2]
        | ok idx =>
          cases hcore : pushdownCore idx n with
          | mk out st =>
            cases out with
            | error e3 => simp [pushdown, h1, h2, hcore]
            | ok node =>
              cases hq : st.queryIndexes.isEmpty <;>
                simp [pushdown, h1, h2, hcore, hq] at h
  · intro e ha hr hi
    subst ha
    simp [pushdown, hr, hi]
  · intro idx e st ha hr hi hcore
    subst ha
    simp [pushdown, hr, hi, hcore]

/-- Witness for C6: a failing index assignment aborts with that error and
nothing to release; a traversal failure (a handled conjunct referencing a
missing column) aborts after an index handle was already recorded for the
other join branch, and exactly that handle is released on the way out. -/
theorem pushdown_error_releases_recorded_witness :
    pushdown (.error (.other "boom"))
        (.resolvedTable ⟨"t", [], none, false, false, [], none, none⟩) =
      ⟨.error (.other "boom"), [], []⟩ ∧
    (pushdown (.ok [("t1", ⟨[7], "lk"⟩)])
        (.innerJoin
          (.resolvedTable ⟨"t1", [⟨"a", "t1", "int", false⟩], none, false, true, [], none, none⟩)
          (.resolvedTable ⟨"t2", [⟨"b", "t2", "int", false⟩],
            some (fun _ => [.getField 0 "int" "t2" "zz" false]), false, false, [], none, none⟩)
          (.literal 1))).released =
      (pushdown (.ok [("t1", ⟨[7], "lk"⟩)])
        (.innerJoin
          (.resolvedTable ⟨"t1", [⟨"a", "t1", "int", false⟩], none, false, true, [], none, none⟩)
          (.resolvedTable ⟨"t2", [⟨"b", "t2", "int", false⟩],
            some (fun _ => [.getField 0 "int" "t2" "zz" false]), false, false, [], none, none⟩)
          (.literal 1))).recorded ∧
    pushdown (.ok [("t1", ⟨[7], "lk"⟩)])
        (.innerJoin
          (.resolvedTable ⟨"t1", [⟨"a", "t1", "int", false⟩], none, false, true, [], none, none⟩)
          (.resolvedTable ⟨"t2", [⟨"b", "t2", "int", false⟩],
            some (fun _ => [.getField 0 "int" "t2" "zz" false]), false, false, [], none, none⟩)
          (.literal 1)) =
      ⟨.error (.fieldMissing "zz"), [7], [7]⟩ :=
  ⟨(pushdown_error_releases_recorded (.error (.other "boom"))
      (.resolvedTable ⟨"t", [], none, false, false, [], none, none⟩)).2.1
      (.other "boom") rfl rfl rfl,
   (pushdown_error_releases_recorded (.ok [("t1", ⟨[7], "lk"⟩)])
      (.innerJoin
        (.resolvedTable ⟨"t1", [⟨"a", "t1", "int", false⟩], none, false, true, [], none, none⟩)
        (.resolvedTable ⟨"t2", [⟨"b", "t2", "int", false⟩],
          some (fun _ => [.getField 0 "int" "t2" "zz" false]), false, false, [], none, none⟩)
        (.literal 1))).1 (.fieldMissing "zz") rfl,
   (pushdown_error_releases_recorded (.ok [("t1", ⟨[7], "lk"⟩)])
      (.innerJoin
        (.resolvedTable ⟨"t1", [⟨"a", "t1", "int", false⟩], none, false, true, [], none, none⟩)
        (.resolvedTable ⟨"t2", [⟨"b", "t2", "int", false⟩],
          some (fun _ => [.getField 0 "int" "t2" "zz" false]), false, false, [], none, none⟩)
        (.literal 1))).2.2 [("t1", ⟨[7], "lk"⟩)] (.fieldMissing "zz")
      ⟨[.getField 0 "int" "t2" "zz" false], [7]⟩ rfl rfl rfl rfl⟩

/-! ### Field index fixup -/

/-- Fixup computes the spec-side rewrite when every reference resolves, and
fails with the name of the first unresolved reference otherwise. -/
theorem fixFieldIndexes_cases (schema : List Column) :
    ∀ e : Expression, fixFieldIndexes schema e =
      (match firstMissing schema e with
       | none => .ok (specFixExpr schema e)
       | some nm => .error (.fieldMissing nm)) := by
  intro e
  induction e with
  | getField i ty tb nm nu =>
    cases h : findMatchAux tb nm 0 schema <;>
      simp [fixFieldIndexes, Expression.transformUp, firstMissing, specFixExpr, h]
  | literal v => rfl
  | and l r ihl ihr =>
    simp only [fixFieldIndexes] at ihl ihr ⊢
    simp only [Expression.transformUp]
    cases hl : firstMissing schema l with
    | some nm =>
      rw [hl] at ihl
      rw [ihl]
      simp [firstMissing, hl]
    | none =>
      rw [hl] at ihl
      rw [ihl]
      cases hr2 : firstMissing schema r with
      | some nm =>
        rw [hr2] at ihr
        rw [ihr]
        simp [firstMissing, hl, hr2]
      | none =>
        rw [hr2] at ihr
        rw [ihr]
        simp [firstMissing, specFixExpr, hl, hr2]
  | or l r ihl ihr =>
    simp only [fixFieldIndexes] at ihl ihr ⊢
    simp only [Expression.transformUp]
    cases hl : firstMissing schema l with
    | some nm =>
      rw [hl] at ihl
      rw [ihl]
      simp [firstMissing, hl]
    | none =>
      rw [hl] at ihl
      rw [ihl]
      cases hr2 : firstMissing schema r with
      | some nm =>
        rw [hr2] at ihr
        rw [ihr]
        simp [firstMissing, hl, hr2]
      | none =>
        rw [hr2] at ihr
        rw [ihr]
        simp [firstMissing, specFixExpr, hl, hr2]
  | eq l r ihl ihr =>
    simp only [fixFieldIndexes] at ihl ihr ⊢
    simp only [Expression.transformUp]
    cases hl : firstMissing schema l with
    | some nm =>
      rw [hl] at ihl
      rw [ihl]
      simp [firstMissing, hl]
    | none =>
      rw [hl] at ihl
      rw [ihl]
      cases hr2 : firstMissing schema r with
      | some nm =>
        rw [hr2] at ihr
        rw [ihr]
        simp [firstMissing, hl, hr2]
      | none =>
        rw [hr2] at ihr
        rw [ihr]
        simp [firstMissing, specFixExpr, hl, hr2]

/-- The fixup search finds every reference exactly when no field-reference
in the expression is unmatched in the schema. -/
theorem firstMissing_none_iff (schema : List Column) :
    ∀ e : Expression, firstMissing schema e = none ↔
      ∀ i ty tb nm nu, Expression.getField i ty tb nm nu ∈ e.subExprs →
        ∃ j, findMatchAux tb nm 0 schema = some j := by
  intro e
  induction e with
  | getField i ty tb nm nu =>
    cases h : findMatchAux tb nm 0 schema with
    | some j =>
      simp only [firstMissing, h, Expression.subExprs]
      constructor
      · intro _ i2 ty2 tb2 nm2 nu2 hmem
        have heq := List.mem_singleton.mp hmem
        obtain ⟨hi, hty, htb, hnm, hnu⟩ := Expression.getField.inj heq
        rw [htb, hnm]
        exact ⟨j, h⟩
      · intro _
        trivial
    | none =>
      simp only [firstMissing, h, Expression.subExprs]
      constructor
      · intro hcon
        exact Option.noConfusion hcon
      · intro hall
        rcases hall i ty tb nm nu (List.mem_singleton_self _) with ⟨j, hj⟩
        rw [h] at hj
        exact Option.noConfusion hj
  | literal v => simp [firstMissing, Expression.subExprs]
  | and l r ihl ihr =>
    simp only [firstMissing, Expression.subExprs]
    cases hl : firstMissing schema l with
    | some nm =>
      constructor
      · intro hcon
        exact Option.noConfusion hcon
      · intro hall
        have hnone : firstMissing schema l = none :=
          ihl.mpr fun i ty tb nm2 nu hmem =>
            hall i ty tb nm2 nu (List.mem_cons_of_mem _ (List.mem_append_left _ hmem))
        rw [hl] at hnone
        exact Option.noConfusion hnone
    | none =>
      rw [ihr]
      constructor
      · intro hall i ty tb nm nu hmem
        rcases List.mem_cons.mp hmem with heq | hmem2
        · exact Expression.noConfusion heq
        · rcases List.mem_append.mp hmem2 with h1 | h2
          · exact (ihl.mp hl) i ty tb nm nu h1
          · exact hall i ty tb nm nu h2
      · intro hall i ty tb nm nu hmem
        exact hall i ty tb nm nu (List.mem_cons_of_mem _ (List.mem_append_right _ hmem))
  | or l r ihl ihr =>
    simp only [firstMissing, Expression.subExprs]
    cases hl : firstMissing schema l with
    | some nm =>
      constructor
      · intro hcon
        exact Option.noConfusion hcon
      · intro hall
        have hnone : firstMissing schema l = none :=
          ihl.mpr fun i ty tb nm2 nu hmem =>
            hall i ty tb nm2 nu (List.mem_cons_of_mem _ (List.mem_append_left _ hmem))
        rw [hl] at hnone
        exact Option.noConfusion hnone
    | none =>
      rw [ihr]
      constructor
      · intro hall i ty tb nm nu hmem
        rcases List.mem_cons.mp hmem with heq | hmem2
        · exact Expression.noConfusion heq
        · rcases List.mem_append.mp hmem2 with h1 | h2
          · exact (ihl.mp hl) i ty tb nm nu h1
          · exact hall i ty tb nm nu h2
      · intro hall i ty tb nm nu hmem
        exact hall i ty tb nm nu (List.mem_cons_of_mem _ (List.mem_append_right _ hmem))
  | eq l r ihl ihr =>
    simp only [firstMissing, Expression.subExprs]
    cases hl : firstMissing schema l with
    | some nm =>
      constructor
      · intro hcon
        exact Option.noConfusion hcon
      · intro hall
        have hnone : firstMissing schema l = none :=
          ihl.mpr fun i ty tb nm2 nu hmem =>
            hall i ty tb nm2 nu (List.mem_cons_of_mem _ (List.mem_append_left _ hmem))
        rw [hl] at hnone
        exact Option.noConfusion hnone
    | none =>
      rw [ihr]
      constructor
      · intro hall i ty tb nm nu hmem
        rcases List.mem_cons.mp hmem with heq | hmem2
        · exact Expression.noConfusion heq
        · rcases List.mem_append.mp hmem2 with h1 | h2
          · exact (ihl.mp hl) i ty tb nm nu h1
          · exact hall i ty tb nm nu h2
      · intro hall i ty tb nm nu hmem
        exact hall i ty tb nm nu (List.mem_cons_of_mem _ (List.mem_append_right _ hmem))

/-- C5: field index fixup rewrites every field-reference to the positional
index of the first schema column matching its (name, source) pair, keeping
type, table, name and nullability; it fails — with a field-missing error
naming an unmatched reference — exactly when some field-reference of the
expression matches no column of the schema. -/
theorem fixFieldIndexes_matches_spec (schema : List Column) (e : Expression) :
    fixFieldIndexes schema e =
      (match firstMissing schema e with
       | none => .ok (specFixExpr schema e)
       | some nm => .error (.fieldMissing nm)) ∧
    (firstMissing schema e = none ↔
      ∀ i ty tb nm nu, Expression.getField i ty tb nm nu ∈ e.subExprs →
        ∃ j, findMatchAux tb nm 0 schema = some j) ∧
    ((∃ nm2, fixFieldIndexes schema e = .error (.fieldMissing nm2)) ↔
      ¬ ∀ i ty tb nm nu, Expression.getField i ty tb nm nu ∈ e.subExprs →
          ∃ j, findMatchAux tb nm 0 schema = some j) := by
  refine ⟨fixFieldIndexes_cases schema e, firstMissing_none_iff schema e, ?_⟩
  cases hfm : firstMissing schema e with
  | none =>
    constructor
    · intro hex
      rcases hex with ⟨nm2, hc⟩
      rw [fixFieldIndexes_cases schema e, hfm] at hc
      exact Except.noConfusion hc
    · intro hneg
      exact absurd ((firstMissing_none_iff schema e).mp hfm) hneg
  | some nm =>
    constructor
    · intro _ hP
      have hnone := (firstMissing_none_iff schema e).mpr hP
      rw [hfm] at hnone
      exact Option.noConfusion hnone
    · intro _
      refine ⟨nm, ?_⟩
      rw [fixFieldIndexes_cases schema e, hfm]

/-! ### Column usage collection -/

/-- Appending a name under key `k` extends exactly the entry for `k`. -/
theorem lookupTable_assocAppendS :
    ∀ (l : List (String × List String)) (k v t : String),
      lookupTable (assocAppendS l k v) t =
        if k = t then lookupTable l t ++ [v] else lookupTable l t := by
  intro l
  induction l with
  | nil =>
    intro k v t
    by_cases hk : k = t <;> simp [assocAppendS, lookupTable, hk]
  | cons p rest ih =>
    intro k v t
    obtain ⟨k2, vs⟩ := p
    by_cases h2 : k2 = k
    · subst h2
      by_cases h3 : k2 = t <;> simp [assocAppendS, lookupTable, h3]
    · by_cases h3 : k2 = t
      · have hk : ¬k = t := fun h => h2 (h3.trans h.symm)
        have ht : ¬t = k := fun h => hk h.symm
        simp [assocAppendS, lookupTable, h2, h3, hk, ht]
      · simp [assocAppendS, lookupTable, h2, h3, ih]

/-- Folding the collection step over a list of expressions appends, per
table, exactly the names of the pairs not yet seen. -/
theorem foldl_collectStep (t : String) :
    ∀ (es : List Expression) (st : CollectState),
      lookupTable (es.foldl collectStep st).fieldsByTable t =
        lookupTable st.fieldsByTable t ++ auxNew t st.tableFields es := by
  intro es
  induction es with
  | nil => intro st; simp [auxNew]
  | cons e es ih =>
    intro st
    cases e with
    | getField i ty tb nm nu =>
      by_cases hmem : (tb, nm) ∈ st.tableFields
      · have hstep : collectStep st (.getField i ty tb nm nu) = st := by
          simp [collectStep, hmem]
        rw [List.foldl_cons, hstep]
        simp only [auxNew, if_pos hmem]
        exact ih st
      · have hstep : collectStep st (.getField i ty tb nm nu) =
            ⟨(tb, nm) :: st.tableFields,
             assocAppendS st.fieldsByTable tb nm,
             assocAppendE st.exprsByTable tb (.getField i ty tb nm nu)⟩ := by
          simp [collectStep, hmem]
        rw [List.foldl_cons, hstep, ih]
        simp only [lookupTable_assocAppendS]
        by_cases htb : tb = t
        · subst htb
          simp only [auxNew, if_neg hmem, if_pos rfl, if_pos]
          simp
        · simp only [auxNew, if_neg hmem, if_neg htb]
    | literal v =>
      rw [List.foldl_cons, show collectStep st (.literal v) = st from rfl]
      simpa only [auxNew] using ih st
    | and l r =>
      rw [List.foldl_cons, show collectStep st (.and l r) = st from rfl]
      simpa only [auxNew] using ih st
    | or l r =>
      rw [List.foldl_cons, show collectStep st (.or l r) = st from rfl]
      simpa only [auxNew] using ih st
    | eq l r =>
      rw [List.foldl_cons, show collectStep st (.eq l r) = st from rfl]
      simpa only [auxNew] using ih st

/-- The pair-keyed first-occurrence walk, restricted to one table, is the
first-occurrence deduplication of that table's referenced names. -/
theorem auxNew_eq_firstDedup (t : String) :
    ∀ (es : List Expression) (seen : List (String × String)) (seenN : List String),
      (∀ nm, (t, nm) ∈ seen ↔ nm ∈ seenN) →
      auxNew t seen es = firstDedupFrom seenN (namesFor t es) := by
  intro es
  induction es with
  | nil => intro seen seenN _; rfl
  | cons e es ih =>
    intro seen seenN hinv
    cases e with
    | getField i ty tb nm nu =>
      by_cases htb : tb = t
      · subst htb
        have hnames : namesFor tb (.getField i ty tb nm nu :: es) =
            nm :: namesFor tb es := by
          simp [namesFor, List.filterMap_cons]
        by_cases hmem : (tb, nm) ∈ seen
        · have hn : nm ∈ seenN := (hinv nm).mp hmem
          simp only [auxNew, if_pos hmem, hnames, firstDedupFrom, if_pos hn]
          exact ih seen seenN hinv
        · have hn : nm ∉ seenN := fun h => hmem ((hinv nm).mpr h)
          simp only [auxNew, if_neg hmem, if_pos rfl, hnames, firstDedupFrom, if_neg hn]
          refine congrArg (nm :: ·) (ih ((tb, nm) :: seen) (nm :: seenN) ?_)
          intro nm2
          simp [List.mem_cons, Prod.ext_iff, hinv nm2]
      · have hnames : namesFor t (.getField i ty tb nm nu :: es) = namesFor t es := by
          simp [namesFor, List.filterMap_cons, htb]
        by_cases hmem : (tb, nm) ∈ seen
        · simp only [auxNew, if_pos hmem, hnames]
          exact ih seen seenN hinv
        · simp only [auxNew, if_neg hmem, if_neg htb, hnames]
          refine ih ((tb, nm) :: seen) seenN ?_
          intro nm2
          constructor
          · intro h
            rcases List.mem_cons.mp h with heq | h2
            · exact absurd (congrArg Prod.fst heq).symm htb
            · exact (hinv nm2).mp h2
          · intro h
            exact List.mem_cons_of_mem _ ((hinv nm2).mpr h)
    | literal v =>
      simpa only [auxNew, namesFor, List.filterMap_cons] using ih seen seenN hinv
    | and l r =>
      simpa only [auxNew, namesFor, List.filterMap_cons] using ih seen seenN hinv
    | or l r =>
      simpa only [auxNew, namesFor, List.filterMap_cons] using ih seen seenN hinv
    | eq l r =>
      simpa only [auxNew, namesFor, List.filterMap_cons] using ih seen seenN hinv

/-- Elements surviving first-occurrence deduplication were not among the
already-seen elements. -/
theorem mem_firstDedupFrom_not_seen [DecidableEq α] :
    ∀ (l seen : List α) (x : α), x ∈ firstDedupFrom seen l → x ∉ seen := by
  intro l
  induction l with
  | nil => intro seen x hx; simp [firstDedupFrom] at hx
  | cons a rest ih =>
    intro seen x hx
    by_cases ha : a ∈ seen
    · rw [show firstDedupFrom seen (a :: rest) = firstDedupFrom seen rest from by
        simp [firstDedupFrom, ha]] at hx
      exact ih seen x hx
    · rw [show firstDedupFrom seen (a :: rest) = a :: firstDedupFrom (a :: seen) rest from by
        simp [firstDedupFrom, ha]] at hx
      rcases List.mem_cons.mp hx with h | h
      · exact h ▸ ha
      · intro hxs
        exact ih (a :: seen) x h (List.mem_cons_of_mem a hxs)

/-- First-occurrence deduplication yields a duplicate-free list. -/
theorem firstDedupFrom_nodup [DecidableEq α] :
    ∀ l seen : List α, (firstDedupFrom seen l).Nodup := by
  intro l
  induction l with
  | nil => intro seen; simp [firstDedupFrom]
  | cons a rest ih =>
    intro seen
    by_cases ha : a ∈ seen
    · rw [show firstDedupFrom seen (a :: rest) = firstDedupFrom seen rest from by
        simp [firstDedupFrom, ha]]
      exact ih seen
    · rw [show firstDedupFrom seen (a :: rest) = a :: firstDedupFrom (a :: seen) rest from by
        simp [firstDedupFrom, ha]]
      refine List.nodup_cons.mpr ⟨?_, ih (a :: seen)⟩
      intro hmem
      exact mem_firstDedupFrom_not_seen rest (a :: seen) a hmem (List.mem_cons_self a seen)

/-- C7: for every table tag, the collection phase records exactly the
first-occurrence-deduplicated, order-preserving list of column names whose
(table, column) pair appears in a field-reference anywhere in the tree, in
traversal order; later occurrences of an already-seen pair are ignored, so
the recorded list is duplicate-free. -/
theorem collect_columns_first_occurrence (n : Node) (t : String) :
    lookupTable (collectFields n).fieldsByTable t =
      firstDedupFrom [] (namesFor t n.allSubExprs) ∧
    (lookupTable (collectFields n).fieldsByTable t).Nodup := by
  have h1 : lookupTable (collectFields n).fieldsByTable t = auxNew t [] n.allSubExprs := by
    have h := foldl_collectStep t n.allSubExprs ⟨[], [], []⟩
    simpa [collectFields, lookupTable] using h
  have h2 : auxNew t [] n.allSubExprs = firstDedupFrom [] (namesFor t n.allSubExprs) :=
    auxNew_eq_firstDedup t n.allSubExprs [] [] (by intro nm; simp)
  refine ⟨h1.trans h2, ?_⟩
  rw [h1, h2]
  exact firstDedupFrom_nodup _ _

end Csvql
